import Mathlib

/-!
Shallow embedding of `src/src-tauri/src/main.rs` (tiny-oscope).

The Rust program keeps a fixed-capacity ring buffer of analog samples
(`ReadHistory`) with a running average, lifetime extrema, and a simple
peak-detection state machine deriving wavelength and frequency, plus an
8-bit wrapping `Ticker` that drives the synthetic sample source.

Modelling choices:
* `f32` sample values and durations are modelled exactly as `ℚ`.
* `Instant::now()` is modelled by passing the current timestamp (a `ℚ`)
  to `push` as an explicit argument; `Duration` is non-negative, and
  `Instant::duration_since` saturates at zero, so the elapsed duration is
  `max (now - earlier) 0`.
* The `[f32; HISTORY_SIZE]` array is a `List ℚ` whose length is the
  capacity; the Rust indexing `self.data[self.head]` is `List.getD`
  (the reachable-state invariant `head < data.length` proved below shows
  the default is never taken), and `self.data[self.head] = n` is
  `List.set`.
* `u8` with `wrapping_add` is a natural number reduced modulo 256.
-/

/-- `const MAX_VOLT: f32 = 5.0;` -/
def MAX_VOLT : ℚ := 5

/-- `const HISTORY_SIZE: usize = 1_000;` -/
def HISTORY_SIZE : ℕ := 1000

/-- The `ReadHistory` struct from `main.rs`. `peaked_at : Option ℚ` models
`Option<Instant>` (a timestamp), `wavelength : Option ℚ` models
`Option<Duration>` (a duration in seconds). -/
structure ReadHistory where
  head : ℕ
  data : List ℚ
  average : ℚ
  max : ℚ
  min : ℚ
  peaked_at : Option ℚ
  frequency : ℚ
  wavelength : Option ℚ
  deriving Repr, DecidableEq

namespace ReadHistory

/-- `ReadHistory::new(default_value)`. -/
def new (default_value : ℚ) : ReadHistory :=
  { head := 0
    data := List.replicate HISTORY_SIZE default_value
    average := default_value
    max := default_value
    min := default_value
    peaked_at := none
    frequency := 0
    wavelength := none }

/-- `ReadHistory::push(&mut self, n: f32)`, with `now` the value of
`Instant::now()` during this call. Field updates mirror the source line by
line: buffer write at `head`, incremental average update, head advance
modulo capacity, watermark updates, then the peak-detection branch with
`err_margin = (max - min) / 2 * 0.05`. -/
def push (h : ReadHistory) (n : ℚ) (now : ℚ) : ReadHistory :=
  let old := h.data.getD h.head 0
  let data := h.data.set h.head n
  let average := h.average - old / (data.length : ℚ) + n / (data.length : ℚ)
  let head := (h.head + 1) % data.length
  let newmax := Max.max h.max n
  let newmin := Min.min h.min n
  let amplitude := (newmax - newmin) / 2
  let err_margin := amplitude * (5 / 100)
  if err_margin < newmax - n then
    -- we're outside of a peak
    match h.peaked_at with
    | none =>
      -- we've just left the peak
      { h with data := data, average := average, head := head,
               max := newmax, min := newmin, peaked_at := some now }
    | some _ =>
      { h with data := data, average := average, head := head,
               max := newmax, min := newmin }
  else
    match h.peaked_at with
    | some peaked_at =>
      -- we've just entered a peak, completing a wave
      let wavelength := Max.max (now - peaked_at) 0
      { h with data := data, average := average, head := head,
               max := newmax, min := newmin, peaked_at := none,
               wavelength := some wavelength,
               frequency := 1 / wavelength }
    | none =>
      { h with data := data, average := average, head := head,
               max := newmax, min := newmin }

/-- A sequence of pushes; each element is `(value, timestamp)`. -/
def pushAll (h : ReadHistory) (vs : List (ℚ × ℚ)) : ReadHistory :=
  vs.foldl (fun s p => s.push p.1 p.2) h

/-- `ReadHistory::amplitude(&self)`: the amplitude, in volts. -/
def amplitude (h : ReadHistory) : ℚ :=
  (h.max - h.min) / 2 * MAX_VOLT

/-- `ReadHistory::frequency(&self)`: the frequency, in Hz. -/
def frequencyHz (h : ReadHistory) : ℚ :=
  h.frequency

/-- `ReadHistory::wavelength(&self)`: the wavelength, in seconds
(`self.wavelength.map(|d| d.as_secs_f32()).unwrap_or(0.0)`). -/
def wavelengthSeconds (h : ReadHistory) : ℚ :=
  (h.wavelength.map (fun d => d)).getD 0

/-- The buffer read in ring order starting at `head` (oldest entry first). -/
def ringView (h : ReadHistory) : List ℚ :=
  (List.range h.data.length).map (fun i => h.data.getD ((h.head + i) % h.data.length) 0)

end ReadHistory

/-- Invariant used for the constant-input analysis: the tracker has never
recorded a wave (`wavelength = none`, `frequency = 0`), the constant value
`v` lies between the watermarks, and whenever a peak-exit timestamp is
stored, the sample `v` is strictly outside the 5% tolerance band below
`max` (so the peak-completion branch cannot fire on another push of `v`). -/
def ConstInv (v : ℚ) (h : ReadHistory) : Prop :=
  h.wavelength = none ∧ h.frequency = 0 ∧ h.min ≤ v ∧ v ≤ h.max ∧
    (h.peaked_at ≠ none → (h.max - h.min) / 2 * (5 / 100) < h.max - v)

/-- States reachable from `ReadHistory::new` by any sequence of pushes. -/
inductive Reachable : ReadHistory → Prop where
  | new (d : ℚ) : Reachable (ReadHistory.new d)
  | push (h : ReadHistory) (n now : ℚ) : Reachable h → Reachable (h.push n now)

/-- The `Ticker` struct: a `u8` counter, `tick` does `wrapping_add(1)`. -/
structure Ticker where
  val : ℕ
  deriving Repr, DecidableEq

namespace Ticker

/-- `Ticker::new()`. -/
def new : Ticker := ⟨0⟩

/-- `Ticker::tick(&mut self)`: `self.0 = self.0.wrapping_add(1)` on `u8`. -/
def tick (t : Ticker) : Ticker := ⟨(t.val + 1) % 256⟩

/-- `Ticker::value(&self)`. -/
def value (t : Ticker) : ℕ := t.val

/-- `n` successive `tick` calls (one per `analog_read` invocation). -/
def tickN (t : Ticker) : ℕ → Ticker
  | 0 => t
  | n + 1 => (t.tickN n).tick

end Ticker

/-- The `Stats` struct serialized to the frontend. -/
structure Stats where
  amplitude : ℚ
  frequency : ℚ
  wavelength : ℚ
  deriving Repr, DecidableEq

/-- The `stats` command: it takes the lock and reads the three derived
metrics. It is modelled as a state transformer returning the produced
`Stats` together with the (unchanged) tracker state, so that absence of
mutation is a statement about the definition rather than an assumption. -/
def stats (h : ReadHistory) : Stats × ReadHistory :=
  ({ amplitude := h.amplitude
     frequency := h.frequencyHz
     wavelength := h.wavelengthSeconds }, h)

/-! ## Basic facts about `push` -/

namespace ReadHistory

theorem push_data (h : ReadHistory) (n now : ℚ) :
    (h.push n now).data = h.data.set h.head n := by
  unfold push
  cases hp : h.peaked_at <;> simp only [hp] <;> split <;> rfl

theorem push_head (h : ReadHistory) (n now : ℚ) :
    (h.push n now).head = (h.head + 1) % h.data.length := by
  unfold push
  cases hp : h.peaked_at <;> simp only [hp] <;> split <;> simp [List.length_set]

theorem push_max (h : ReadHistory) (n now : ℚ) :
    (h.push n now).max = Max.max h.max n := by
  unfold push
  cases hp : h.peaked_at <;> simp only [hp] <;> split <;> rfl

theorem push_min (h : ReadHistory) (n now : ℚ) :
    (h.push n now).min = Min.min h.min n := by
  unfold push
  cases hp : h.peaked_at <;> simp only [hp] <;> split <;> rfl

theorem push_average (h : ReadHistory) (n now : ℚ) :
    (h.push n now).average =
      h.average - h.data.getD h.head 0 / (h.data.length : ℚ)
        + n / (h.data.length : ℚ) := by
  unfold push
  cases hp : h.peaked_at <;> simp only [hp] <;> split <;> simp [List.length_set]

theorem push_length (h : ReadHistory) (n now : ℚ) :
    (h.push n now).data.length = h.data.length := by
  rw [push_data, List.length_set]

theorem pushAll_nil (h : ReadHistory) : h.pushAll [] = h := rfl

theorem pushAll_cons (h : ReadHistory) (p : ℚ × ℚ) (vs : List (ℚ × ℚ)) :
    h.pushAll (p :: vs) = (h.push p.1 p.2).pushAll vs := rfl

theorem pushAll_length (h : ReadHistory) (vs : List (ℚ × ℚ)) :
    (h.pushAll vs).data.length = h.data.length := by
  induction vs generalizing h with
  | nil => rfl
  | cons p vs ih => rw [pushAll_cons, ih, push_length]

theorem pushAll_head (h : ReadHistory) (vs : List (ℚ × ℚ))
    (hh : h.head < h.data.length) :
    (h.pushAll vs).head = (h.head + vs.length) % h.data.length := by
  induction vs generalizing h with
  | nil => simp [pushAll_nil, Nat.mod_eq_of_lt hh]
  | cons p vs ih =>
      have hpos : 0 < h.data.length := Nat.lt_of_le_of_lt (Nat.zero_le _) hh
      rw [pushAll_cons, ih (h.push p.1 p.2)
        (by rw [push_head, push_length]; exact Nat.mod_lt _ hpos),
        push_head, push_length, List.length_cons, Nat.mod_add_mod]
      ring_nf

end ReadHistory

/-! ## Reachable-state invariants -/

theorem reach_length (h : ReadHistory) (hr : Reachable h) :
    h.data.length = HISTORY_SIZE := by
  induction hr with
  | new d => simp [ReadHistory.new]
  | push h n now _ ih => rw [ReadHistory.push_length]; exact ih

theorem reach_head_lt (h : ReadHistory) (hr : Reachable h) :
    h.head < h.data.length := by
  induction hr with
  | new d =>
      simp only [ReadHistory.new, List.length_replicate]
      norm_num [HISTORY_SIZE]
  | push h n now hr ih =>
      rw [ReadHistory.push_head, ReadHistory.push_length]
      exact Nat.mod_lt _ (Nat.lt_of_le_of_lt (Nat.zero_le _) ih)

theorem reach_pushAll (h : ReadHistory) (hr : Reachable h) (vs : List (ℚ × ℚ)) :
    Reachable (h.pushAll vs) := by
  induction vs generalizing h with
  | nil => exact hr
  | cons p vs ih => exact ih _ (Reachable.push h p.1 p.2 hr)

theorem le_pushAll_max (h : ReadHistory) (vs : List (ℚ × ℚ)) :
    h.max ≤ (h.pushAll vs).max := by
  induction vs generalizing h with
  | nil => exact le_refl _
  | cons p vs ih =>
      rw [ReadHistory.pushAll_cons]
      exact le_trans (by rw [ReadHistory.push_max]; exact le_max_left _ _) (ih _)

theorem pushAll_min_le (h : ReadHistory) (vs : List (ℚ × ℚ)) :
    (h.pushAll vs).min ≤ h.min := by
  induction vs generalizing h with
  | nil => exact le_refl _
  | cons p vs ih =>
      rw [ReadHistory.pushAll_cons]
      exact le_trans (ih _) (by rw [ReadHistory.push_min]; exact min_le_left _ _)

theorem reach_min_le_max (h : ReadHistory) (hr : Reachable h) :
    h.min ≤ h.max := by
  induction hr with
  | new d => exact le_refl d
  | push h n now hr ih =>
      rw [ReadHistory.push_max, ReadHistory.push_min]
      exact le_trans (min_le_left _ _) (le_trans ih (le_max_left _ _))

theorem reach_average (h : ReadHistory) (hr : Reachable h) :
    h.average = h.data.sum / (h.data.length : ℚ) := by
  induction hr with
  | new d =>
      simp only [ReadHistory.new, List.sum_replicate, List.length_replicate,
        nsmul_eq_mul]
      norm_num [HISTORY_SIZE]
  | push h n now hr ih =>
      have hlt : h.head < h.data.length := reach_head_lt h hr
      have hpos : (0 : ℚ) < (h.data.length : ℚ) := by
        exact_mod_cast Nat.lt_of_le_of_lt (Nat.zero_le _) hlt
      rw [ReadHistory.push_average, ReadHistory.push_length, ReadHistory.push_data,
        List.sum_set', dif_pos hlt, ih, List.getD_eq_getElem _ _ hlt]
      field_simp
      ring

/-! ## Claim theorems -/

/-- C1: after any sequence of pushes into a tracker created by
`ReadHistory::new(default_value)`, `average` equals the arithmetic mean of
the current buffer contents exactly (arithmetic modelled exactly over `ℚ`):
the incremental `average -= old/capacity; average += new/capacity` update
in `push` matches full recomputation of the mean over the ring. -/
theorem average_matches_mean (d : ℚ) (vs : List (ℚ × ℚ)) :
    ((ReadHistory.new d).pushAll vs).average
      = ((ReadHistory.new d).pushAll vs).data.sum / (HISTORY_SIZE : ℚ) := by
  have hr : Reachable ((ReadHistory.new d).pushAll vs) :=
    reach_pushAll _ (Reachable.new d) vs
  rw [reach_average _ hr, reach_length _ hr]

/-- C3: across any sequence of pushes from any reachable state, `max` is
non-decreasing and `min` is non-increasing (they are lifetime watermarks,
not sliding-window extrema), and in every reachable state `min ≤ max`. -/
theorem watermark_monotone (h : ReadHistory) (hr : Reachable h)
    (vs : List (ℚ × ℚ)) :
    h.max ≤ (h.pushAll vs).max ∧ (h.pushAll vs).min ≤ h.min ∧
      h.min ≤ h.max :=
  ⟨le_pushAll_max h vs, pushAll_min_le h vs, reach_min_le_max h hr⟩

/-- Witness for C3 at the concrete state `new 0` and push sequence
`[(1, 0)]`. -/
theorem watermark_monotone_witness :
    (ReadHistory.new 0).max ≤ ((ReadHistory.new 0).pushAll [(1, 0)]).max ∧
    ((ReadHistory.new 0).pushAll [(1, 0)]).min ≤ (ReadHistory.new 0).min ∧
    (ReadHistory.new 0).min ≤ (ReadHistory.new 0).max :=
  watermark_monotone (ReadHistory.new 0) (Reachable.new 0) [(1, 0)]

/-- C6: in every reachable state the ring-buffer invariants hold: the
write index satisfies `head < capacity` (it advances as
`(head + 1) % capacity`), so the buffer access `data[head]` in `push` is
always in bounds, and the buffer always holds exactly `HISTORY_SIZE`
values; `push` is a total function on such states. -/
theorem head_in_bounds (h : ReadHistory) (hr : Reachable h) :
    h.head < h.data.length ∧ h.data.length = HISTORY_SIZE ∧
      ∀ n now : ℚ, (h.push n now).head < (h.push n now).data.length :=
  ⟨reach_head_lt h hr, reach_length h hr, fun n now =>
    reach_head_lt _ (Reachable.push h n now hr)⟩

/-- Witness for C6 at the concrete state `new 0`. -/
theorem head_in_bounds_witness :
    (ReadHistory.new 0).head < (ReadHistory.new 0).data.length ∧
    (ReadHistory.new 0).data.length = HISTORY_SIZE ∧
    ∀ n now : ℚ,
      ((ReadHistory.new 0).push n now).head
        < ((ReadHistory.new 0).push n now).data.length :=
  head_in_bounds (ReadHistory.new 0) (Reachable.new 0)

/-- C7: for every tracker state, the amplitude reported by the `stats`
read equals `(max - min) / 2 * MAX_VOLT` exactly, with `MAX_VOLT = 5`. -/
theorem amplitude_formula (h : ReadHistory) :
    (stats h).1.amplitude = (h.max - h.min) / 2 * MAX_VOLT ∧ MAX_VOLT = 5 :=
  ⟨rfl, rfl⟩

/-- C9: the `stats` read is pure: it returns the tracker state unchanged,
and reading twice with no intervening push yields identical
`{amplitude, frequency, wavelength}` results. -/
theorem stats_pure_read (h : ReadHistory) :
    (stats h).2 = h ∧ (stats (stats h).2).1 = (stats h).1 :=
  ⟨rfl, rfl⟩

/-- C10: in every reachable state the reported amplitude
`(max - min) / 2 * MAX_VOLT` is non-negative, and it never decreases
across any further sequence of pushes (watermark extrema make the
reported amplitude monotone for the tracker's lifetime). -/
theorem amplitude_nonneg_monotone (h : ReadHistory) (hr : Reachable h)
    (vs : List (ℚ × ℚ)) :
    0 ≤ h.amplitude ∧ h.amplitude ≤ (h.pushAll vs).amplitude := by
  have h1 := reach_min_le_max h hr
  have h2 := le_pushAll_max h vs
  have h3 := pushAll_min_le h vs
  unfold ReadHistory.amplitude MAX_VOLT
  constructor <;> linarith

/-- Witness for C10 at the concrete state `new 0` and pushes `[(2, 0)]`. -/
theorem amplitude_nonneg_monotone_witness :
    0 ≤ (ReadHistory.new 0).amplitude ∧
      (ReadHistory.new 0).amplitude
        ≤ ((ReadHistory.new 0).pushAll [(2, 0)]).amplitude :=
  amplitude_nonneg_monotone (ReadHistory.new 0) (Reachable.new 0) [(2, 0)]

set_option maxRecDepth 4000 in
/-- C8 counterexample: the tick counter is an 8-bit wrapping counter
(`wrapping_add(1)` on `u8`), so its value DOES decrease: after 255
`analog_read` invocations the counter reads 255, and after one more it
wraps to 0 < 255. -/
theorem ticker_wrap_decreases :
    (Ticker.new.tickN 256).value < (Ticker.new.tickN 255).value := by
  decide

/-- C8 (amended): each `analog_read` invocation advances the tick counter
by one modulo 256; after `n` invocations its value is `n % 256`, so it is
non-decreasing only between wraps and drops from 255 to 0 every 256
ticks. -/
theorem ticker_value_mod (n : ℕ) :
    (Ticker.new.tickN n).value = n % 256 := by
  induction n with
  | zero => rfl
  | succ n ih =>
      have hstep : (Ticker.new.tickN (n + 1)).value
          = ((Ticker.new.tickN n).value + 1) % 256 := rfl
      rw [hstep, ih, Nat.mod_add_mod]

/-! ## Peak-detection branch behaviour of `push` -/

namespace ReadHistory

theorem push_outside_none (h : ReadHistory) (n now : ℚ)
    (hp : h.peaked_at = none)
    (hc : (Max.max h.max n - Min.min h.min n) / 2 * (5 / 100)
      < Max.max h.max n - n) :
    (h.push n now).peaked_at = some now ∧
    (h.push n now).wavelength = h.wavelength ∧
    (h.push n now).frequency = h.frequency := by
  simp only [push, hp]
  rw [if_pos hc]
  exact ⟨rfl, rfl, rfl⟩

theorem push_outside_some (h : ReadHistory) (n now t : ℚ)
    (hp : h.peaked_at = some t)
    (hc : (Max.max h.max n - Min.min h.min n) / 2 * (5 / 100)
      < Max.max h.max n - n) :
    (h.push n now).peaked_at = some t ∧
    (h.push n now).wavelength = h.wavelength ∧
    (h.push n now).frequency = h.frequency := by
  simp only [push, hp]
  rw [if_pos hc]
  exact ⟨hp.symm ▸ rfl, rfl, rfl⟩

theorem push_inside_none (h : ReadHistory) (n now : ℚ)
    (hp : h.peaked_at = none)
    (hc : ¬ ((Max.max h.max n - Min.min h.min n) / 2 * (5 / 100)
      < Max.max h.max n - n)) :
    (h.push n now).peaked_at = none ∧
    (h.push n now).wavelength = h.wavelength ∧
    (h.push n now).frequency = h.frequency := by
  simp only [push, hp]
  rw [if_neg hc]
  exact ⟨hp.symm ▸ rfl, rfl, rfl⟩

theorem push_inside_some (h : ReadHistory) (n now t : ℚ)
    (hp : h.peaked_at = some t)
    (hc : ¬ ((Max.max h.max n - Min.min h.min n) / 2 * (5 / 100)
      < Max.max h.max n - n)) :
    (h.push n now).peaked_at = none ∧
    (h.push n now).wavelength = some (Max.max (now - t) 0) ∧
    (h.push n now).frequency = 1 / Max.max (now - t) 0 := by
  simp only [push, hp]
  rw [if_neg hc]
  exact ⟨rfl, rfl, rfl⟩

end ReadHistory

/-! ## Constant-input invariant -/

theorem constInv_push (v : ℚ) (h : ReadHistory) (hJ : ConstInv v h)
    (t : ℚ) : ConstInv v (h.push v t) := by
  obtain ⟨hw, hf, hmin, hmax, hpk⟩ := hJ
  have hmx : Max.max h.max v = h.max := max_eq_left hmax
  have hmn : Min.min h.min v = h.min := min_eq_left hmin
  by_cases hc : (Max.max h.max v - Min.min h.min v) / 2 * (5 / 100)
      < Max.max h.max v - v
  · cases hp : h.peaked_at with
    | none =>
        obtain ⟨h1, h2, h3⟩ := h.push_outside_none v t hp hc
        refine ⟨h2.trans hw, h3.trans hf, ?_, ?_, ?_⟩
        · rw [ReadHistory.push_min, hmn]; exact hmin
        · rw [ReadHistory.push_max, hmx]; exact hmax
        · intro _
          rw [ReadHistory.push_max, ReadHistory.push_min, hmx, hmn]
          rw [hmx, hmn] at hc
          exact hc
    | some t0 =>
        obtain ⟨h1, h2, h3⟩ := h.push_outside_some v t t0 hp hc
        refine ⟨h2.trans hw, h3.trans hf, ?_, ?_, ?_⟩
        · rw [ReadHistory.push_min, hmn]; exact hmin
        · rw [ReadHistory.push_max, hmx]; exact hmax
        · intro _
          rw [ReadHistory.push_max, ReadHistory.push_min, hmx, hmn]
          rw [hmx, hmn] at hc
          exact hc
  · cases hp : h.peaked_at with
    | none =>
        obtain ⟨h1, h2, h3⟩ := h.push_inside_none v t hp hc
        refine ⟨h2.trans hw, h3.trans hf, ?_, ?_, ?_⟩
        · rw [ReadHistory.push_min, hmn]; exact hmin
        · rw [ReadHistory.push_max, hmx]; exact hmax
        · intro hne; rw [h1] at hne; exact absurd rfl hne
    | some t0 =>
        exfalso
        apply hc
        rw [hmx, hmn]
        exact hpk (by rw [hp]; exact fun hx => Option.noConfusion hx)

theorem constInv_first (d v t : ℚ) :
    ConstInv v ((ReadHistory.new d).push v t) := by
  have hp : (ReadHistory.new d).peaked_at = none := rfl
  by_cases hc : (Max.max (ReadHistory.new d).max v
        - Min.min (ReadHistory.new d).min v) / 2 * (5 / 100)
      < Max.max (ReadHistory.new d).max v - v
  · obtain ⟨h1, h2, h3⟩ := (ReadHistory.new d).push_outside_none v t hp hc
    refine ⟨h2.trans rfl, h3.trans rfl, ?_, ?_, ?_⟩
    · rw [ReadHistory.push_min]; exact min_le_right _ v
    · rw [ReadHistory.push_max]; exact le_max_right _ v
    · intro _
      rw [ReadHistory.push_max, ReadHistory.push_min]
      exact hc
  · obtain ⟨h1, h2, h3⟩ := (ReadHistory.new d).push_inside_none v t hp hc
    refine ⟨h2.trans rfl, h3.trans rfl, ?_, ?_, ?_⟩
    · rw [ReadHistory.push_min]; exact min_le_right _ v
    · rw [ReadHistory.push_max]; exact le_max_right _ v
    · intro hne; rw [h1] at hne; exact absurd rfl hne

theorem constInv_pushAll (v : ℚ) (h : ReadHistory) (hJ : ConstInv v h)
    (ts : List ℚ) : ConstInv v (h.pushAll (ts.map (fun t => (v, t)))) := by
  induction ts generalizing h with
  | nil => exact hJ
  | cons t ts ih => exact ih _ (constInv_push v h hJ t)

/-- C5: pushing one constant value `v` exactly `capacity * 3` times into a
fresh tracker `new(default_value)` (with arbitrary timestamps) never moves
`wavelength` or `frequency` away from their initial values: `wavelength`
stays `none` and `frequency` stays `0` — constant input produces no
spurious peak-cycle completion. -/
theorem const_input_no_cycle (d v : ℚ) (ts : List ℚ)
    (hlen : ts.length = 3 * HISTORY_SIZE) :
    ((ReadHistory.new d).pushAll (ts.map (fun t => (v, t)))).wavelength
        = none ∧
    ((ReadHistory.new d).pushAll (ts.map (fun t => (v, t)))).frequency
        = 0 := by
  cases ts with
  | nil => rw [List.length_nil] at hlen; norm_num [HISTORY_SIZE] at hlen
  | cons t ts =>
      have hJ := constInv_pushAll v _ (constInv_first d v t) ts
      exact ⟨hJ.1, hJ.2.1⟩

/-- Witness for C5: a concrete timestamp list of length `3 * 1000`. -/
theorem const_input_no_cycle_witness :
    (List.replicate (3 * HISTORY_SIZE) (0 : ℚ)).length = 3 * HISTORY_SIZE ∧
    (((ReadHistory.new 0).pushAll
        ((List.replicate (3 * HISTORY_SIZE) (0 : ℚ)).map
          (fun t => ((1 : ℚ), t)))).wavelength = none ∧
     ((ReadHistory.new 0).pushAll
        ((List.replicate (3 * HISTORY_SIZE) (0 : ℚ)).map
          (fun t => ((1 : ℚ), t)))).frequency = 0) :=
  ⟨by simp,
   const_input_no_cycle 0 1 (List.replicate (3 * HISTORY_SIZE) 0) (by simp)⟩

/-- C4 (bug exhibit): `push` has NO guard against a zero-duration
wavelength. Two peak transitions at the same instant are not rejected:
starting from `new(0.5)`, pushing `0.2` at time 7 stores the peak-exit
timestamp, and pushing `0.5` at the same time 7 completes the "wave" with
`wavelength = Some(0)` and computes `frequency = 1.0 / 0.0` — in the Rust
`f32` semantics this is positive infinity, not a finite frequency (over
`ℚ` the division is recorded with its zero divisor: the reported
frequency is `1 / 0`). -/
theorem zero_wavelength_not_guarded :
    (((ReadHistory.new (1/2)).push (1/5) 7).push (1/2) 7).wavelength
        = some 0 ∧
    (((ReadHistory.new (1/2)).push (1/5) 7).push (1/2) 7).frequency
        = 1 / (0 : ℚ) := by
  have ha : Max.max ((1 : ℚ)/2) (1/5) = 1/2 := max_eq_left (by norm_num)
  have hb : Min.min ((1 : ℚ)/2) (1/5) = 1/5 := min_eq_right (by norm_num)
  have hc1 : (Max.max (ReadHistory.new (1/2)).max (1/5)
        - Min.min (ReadHistory.new (1/2)).min (1/5)) / 2 * (5 / 100)
      < Max.max (ReadHistory.new (1/2)).max (1/5) - 1/5 := by
    show (Max.max ((1 : ℚ)/2) (1/5) - Min.min ((1 : ℚ)/2) (1/5)) / 2 * (5 / 100)
        < Max.max ((1 : ℚ)/2) (1/5) - 1/5
    rw [ha, hb]; norm_num
  obtain ⟨hp1, _, _⟩ :=
    (ReadHistory.new (1/2)).push_outside_none (1/5) 7 rfl hc1
  have hmax1 : ((ReadHistory.new (1/2)).push (1/5) 7).max = 1/2 := by
    rw [ReadHistory.push_max]; exact ha
  have hmin1 : ((ReadHistory.new (1/2)).push (1/5) 7).min = 1/5 := by
    rw [ReadHistory.push_min]; exact hb
  have hc2 : ¬ ((Max.max ((ReadHistory.new (1/2)).push (1/5) 7).max (1/2)
        - Min.min ((ReadHistory.new (1/2)).push (1/5) 7).min (1/2))
          / 2 * (5 / 100)
      < Max.max ((ReadHistory.new (1/2)).push (1/5) 7).max (1/2) - 1/2) := by
    rw [hmax1, hmin1, max_self, min_eq_left (by norm_num : (1:ℚ)/5 ≤ 1/2)]
    norm_num
  obtain ⟨_, hw2, hf2⟩ :=
    ((ReadHistory.new (1/2)).push (1/5) 7).push_inside_some (1/2) 7 7 hp1 hc2
  have hz : Max.max ((7 : ℚ) - 7) 0 = 0 := by rw [sub_self]; exact max_self 0
  constructor
  · rw [hw2, hz]
  · rw [hf2, hz]

/-! ## Ring-buffer content after a push sequence -/

/-- Two write positions whose push indices differ by less than the
capacity land in distinct slots. -/
theorem mod_ne_of_lt_gap (a j k n : ℕ) (hjk : j < k) (hgap : k - j < n) :
    (a + k) % n ≠ (a + j) % n := by
  intro hEq
  have h2 : n ∣ (a + k) - (a + j) := (Nat.modEq_iff_dvd' (by omega)).mp hEq.symm
  have h3 : (a + k) - (a + j) = k - j := by omega
  rw [h3] at h2
  have := Nat.le_of_dvd (by omega) h2
  omega

/-- Slots that no push of the sequence writes to keep their contents. -/
theorem pushAll_getElem?_untouched (vs : List (ℚ × ℚ)) (h : ReadHistory)
    (s : ℕ) (hh : h.head < h.data.length)
    (hmiss : ∀ k, k < vs.length → (h.head + k) % h.data.length ≠ s) :
    (h.pushAll vs).data[s]? = h.data[s]? := by
  induction vs generalizing h with
  | nil => rfl
  | cons p vs ih =>
      have hpos : 0 < h.data.length := Nat.lt_of_le_of_lt (Nat.zero_le _) hh
      have hh' : (h.push p.1 p.2).head < (h.push p.1 p.2).data.length := by
        rw [ReadHistory.push_head, ReadHistory.push_length]
        exact Nat.mod_lt _ hpos
      have hne : h.head ≠ s := by
        have h0 := hmiss 0 (by simp)
        rwa [Nat.add_zero, Nat.mod_eq_of_lt hh] at h0
      have hmiss' : ∀ k, k < vs.length →
          ((h.push p.1 p.2).head + k) % (h.push p.1 p.2).data.length ≠ s := by
        intro k hk
        rw [ReadHistory.push_head, ReadHistory.push_length, Nat.mod_add_mod]
        have hxy : h.head + 1 + k = h.head + (k + 1) := by omega
        rw [hxy]
        exact hmiss (k + 1) (by rw [List.length_cons]; omega)
      rw [ReadHistory.pushAll_cons, ih _ hh' hmiss', ReadHistory.push_data,
        List.getElem?_set_ne hne]

/-- The slot written by push number `j` still holds that push's value at
the end of the sequence, provided no later push hits the same slot. -/
theorem pushAll_getElem?_last_write (vs : List (ℚ × ℚ)) (h : ReadHistory)
    (j : ℕ) (hh : h.head < h.data.length) (hj : j < vs.length)
    (hlast : ∀ k, j < k → k < vs.length →
      (h.head + k) % h.data.length ≠ (h.head + j) % h.data.length) :
    (h.pushAll vs).data[(h.head + j) % h.data.length]?
      = (vs[j]?).map Prod.fst := by
  induction vs generalizing h j with
  | nil => exact absurd hj (by simp)
  | cons p vs ih =>
      have hpos : 0 < h.data.length := Nat.lt_of_le_of_lt (Nat.zero_le _) hh
      have hh' : (h.push p.1 p.2).head < (h.push p.1 p.2).data.length := by
        rw [ReadHistory.push_head, ReadHistory.push_length]
        exact Nat.mod_lt _ hpos
      cases j with
      | zero =>
          have hslot : (h.head + 0) % h.data.length = h.head := by
            rw [Nat.add_zero, Nat.mod_eq_of_lt hh]
          have hmiss : ∀ k, k < vs.length →
              ((h.push p.1 p.2).head + k) % (h.push p.1 p.2).data.length
                ≠ (h.head + 0) % h.data.length := by
            intro k hk
            rw [ReadHistory.push_head, ReadHistory.push_length, Nat.mod_add_mod]
            have hxy : h.head + 1 + k = h.head + (k + 1) := by omega
            rw [hxy]
            exact hlast (k + 1) (Nat.succ_pos k) (by rw [List.length_cons]; omega)
          rw [ReadHistory.pushAll_cons,
            pushAll_getElem?_untouched vs _ _ hh' hmiss,
            ReadHistory.push_data, hslot, List.getElem?_set_eq_of_lt _ hh]
          simp
      | succ j =>
          have hj' : j < vs.length := by
            rw [List.length_cons] at hj; omega
          have hstep : (h.head + (j + 1)) % h.data.length
              = ((h.push p.1 p.2).head + j) % (h.push p.1 p.2).data.length := by
            rw [ReadHistory.push_head, ReadHistory.push_length, Nat.mod_add_mod]
            congr 1
            omega
          have hlast' : ∀ k, j < k → k < vs.length →
              ((h.push p.1 p.2).head + k) % (h.push p.1 p.2).data.length
                ≠ ((h.push p.1 p.2).head + j) % (h.push p.1 p.2).data.length := by
            intro k hk1 hk2
            rw [ReadHistory.push_head, ReadHistory.push_length,
              Nat.mod_add_mod, Nat.mod_add_mod]
            have hxy : h.head + 1 + k = h.head + (k + 1) := by omega
            have hxy' : h.head + 1 + j = h.head + (j + 1) := by omega
            rw [hxy, hxy']
            exact hlast (k + 1) (by omega) (by rw [List.length_cons]; omega)
          rw [ReadHistory.pushAll_cons, hstep, ih _ j hh' hj' hlast']
          simp

/-- C2: after any sequence of `n ≥ capacity` pushes into a tracker created
by `new(default_value)`, the buffer holds exactly `HISTORY_SIZE` values
and, read in ring order starting at `head`, contains exactly the last
`HISTORY_SIZE` pushed values; moreover each push overwrites the entry at
`head` and advances `head` by one modulo the capacity. -/
theorem ring_buffer_last_values (d : ℚ) (vs : List (ℚ × ℚ))
    (hn : HISTORY_SIZE ≤ vs.length) :
    ((ReadHistory.new d).pushAll vs).data.length = HISTORY_SIZE ∧
    ((ReadHistory.new d).pushAll vs).ringView
      = (vs.map Prod.fst).drop (vs.length - HISTORY_SIZE) ∧
    (∀ (h : ReadHistory) (m now : ℚ),
      (h.push m now).data = h.data.set h.head m ∧
      (h.push m now).head = (h.head + 1) % h.data.length) := by
  have hNpos : 0 < HISTORY_SIZE := by norm_num [HISTORY_SIZE]
  have hlen0 : (ReadHistory.new d).data.length = HISTORY_SIZE := by
    simp [ReadHistory.new]
  have hhead0 : (ReadHistory.new d).head = 0 := rfl
  have hh0 : (ReadHistory.new d).head < (ReadHistory.new d).data.length := by
    rw [hhead0, hlen0]; exact hNpos
  have hlenf : ((ReadHistory.new d).pushAll vs).data.length = HISTORY_SIZE := by
    rw [ReadHistory.pushAll_length, hlen0]
  have hheadf : ((ReadHistory.new d).pushAll vs).head
      = vs.length % HISTORY_SIZE := by
    rw [ReadHistory.pushAll_head _ _ hh0, hhead0, hlen0, Nat.zero_add]
  refine ⟨hlenf, ?_, fun h m now =>
    ⟨ReadHistory.push_data h m now, ReadHistory.push_head h m now⟩⟩
  have hA : ∀ j, j < vs.length →
      (∀ k, j < k → k < vs.length →
        (0 + k) % HISTORY_SIZE ≠ (0 + j) % HISTORY_SIZE) →
      ((ReadHistory.new d).pushAll vs).data[(0 + j) % HISTORY_SIZE]?
        = (vs[j]?).map Prod.fst := by
    intro j hj hl
    have hres := pushAll_getElem?_last_write vs (ReadHistory.new d) j hh0 hj
      (by rw [hhead0, hlen0]; exact hl)
    rw [hhead0, hlen0] at hres
    exact hres
  unfold ReadHistory.ringView
  rw [hlenf, hheadf]
  apply List.ext_getElem?
  intro i
  by_cases hi : i < HISTORY_SIZE
  · have hj : vs.length - HISTORY_SIZE + i < vs.length := by omega
    have hl : ∀ k, vs.length - HISTORY_SIZE + i < k → k < vs.length →
        (0 + k) % HISTORY_SIZE
          ≠ (0 + (vs.length - HISTORY_SIZE + i)) % HISTORY_SIZE := by
      intro k hk1 hk2
      exact mod_ne_of_lt_gap 0 _ k HISTORY_SIZE hk1 (by omega)
    have hslot : (vs.length % HISTORY_SIZE + i) % HISTORY_SIZE
        = (0 + (vs.length - HISTORY_SIZE + i)) % HISTORY_SIZE := by
      rw [Nat.mod_add_mod, Nat.zero_add]
      have hsplit : vs.length + i
          = (vs.length - HISTORY_SIZE + i) + HISTORY_SIZE := by omega
      rw [hsplit, Nat.add_mod_right]
    rw [List.getElem?_map, List.getElem?_range hi, List.getElem?_drop,
      List.getElem?_map]
    simp only [Option.map_some']
    rw [List.getD_eq_getElem?_getD, hslot, hA _ hj hl,
      List.getElem?_eq_getElem hj]
    rfl
  · have hR : ((vs.map Prod.fst).drop (vs.length - HISTORY_SIZE)).length
        = HISTORY_SIZE := by
      rw [List.length_drop, List.length_map]; omega
    rw [List.getElem?_eq_none
        (by rw [List.length_map, List.length_range]; omega),
      List.getElem?_eq_none (by rw [hR]; omega)]

/-- Witness for C2: a concrete push sequence of length exactly
`HISTORY_SIZE`. -/
theorem ring_buffer_last_values_witness :
    HISTORY_SIZE ≤ (List.replicate HISTORY_SIZE ((0 : ℚ), (0 : ℚ))).length ∧
    (((ReadHistory.new 0).pushAll
        (List.replicate HISTORY_SIZE ((0 : ℚ), (0 : ℚ)))).data.length
          = HISTORY_SIZE ∧
     ((ReadHistory.new 0).pushAll
        (List.replicate HISTORY_SIZE ((0 : ℚ), (0 : ℚ)))).ringView
          = ((List.replicate HISTORY_SIZE ((0 : ℚ), (0 : ℚ))).map
              Prod.fst).drop
            ((List.replicate HISTORY_SIZE ((0 : ℚ), (0 : ℚ))).length
              - HISTORY_SIZE) ∧
     (∀ (h : ReadHistory) (m now : ℚ),
        (h.push m now).data = h.data.set h.head m ∧
        (h.push m now).head = (h.head + 1) % h.data.length)) :=
  ⟨by simp,
   ring_buffer_last_values 0 (List.replicate HISTORY_SIZE (0, 0)) (by simp)⟩
